import Mathlib

/-!
Verification of `organizer.py` (Auto_File_Organizer).

The Python source is shallowly embedded below:
* `CATEGORIES`, `get_category` embed the static category table and the
  classifier `get_category` (lines 14-34 of `organizer.py`).
* `splitext` embeds `os.path.splitext` (CPython `posixpath` algorithm).
* `FS` is an explicit filesystem state (sets of file paths and directory
  paths, a path being its list of components); `organize_directory` embeds
  the Python function of the same name as a state transformer on `FS`,
  recording every `print` as an `Event` and taking an oracle `moveOk`
  that tells whether a given `shutil.move` call succeeds (modelling
  the caught per-file exceptions).
-/

namespace Organizer

/-- Embeds Python `str.lower` on a single character, restricted to ASCII
(all extensions in the table and all claims about case use ASCII only). -/
def lowerChar (c : Char) : Char :=
  if 65 ≤ c.toNat ∧ c.toNat ≤ 90 then Char.ofNat (c.toNat + 32) else c

/-- Embeds Python `str.lower` (ASCII fragment): lowercase every character. -/
def pyLower (s : String) : String :=
  ⟨s.data.map lowerChar⟩

/-- The static category table of `organizer.py` lines 14-22: an association
list from category name to the list of lowercase extensions. -/
def CATEGORIES : List (String × List String) :=
  [("Images", [".jpg", ".jpeg", ".png", ".gif", ".bmp", ".tiff", ".webp"]),
   ("Documents", [".pdf", ".docx", ".doc", ".txt", ".xlsx", ".xls", ".pptx", ".ppt", ".odt", ".rtf", ".md"]),
   ("Audio", [".mp3", ".wav", ".aac", ".flac", ".ogg", ".m4a"]),
   ("Video", [".mp4", ".mov", ".avi", ".mkv", ".flv", ".wmv", ".webm"]),
   ("Archives", [".zip", ".rar", ".7z", ".tar", ".gz", ".bz2", ".iso"]),
   ("Executables", [".exe", ".msi", ".dmg", ".app", ".bat", ".sh"]),
   ("Code", [".py", ".js", ".html", ".css", ".java", ".c", ".cpp", ".h", ".cs", ".go", ".rb", ".php", ".json", ".xml", ".yml", ".yaml"])]

/-- The `for category, extensions in CATEGORIES.items(): if ext in extensions:
return category` loop of `get_category` (lines 31-34), with the final
`return "Other"`. -/
def findCategory (ext : String) : List (String × List String) → String
  | [] => "Other"
  | (category, extensions) :: rest =>
    if ext ∈ extensions then category else findCategory ext rest

/-- Embeds `get_category` (lines 24-34): lowercase the extension, scan the
table, default to `"Other"`. -/
def get_category (file_extension : String) : String :=
  findCategory (pyLower file_extension) CATEGORIES

/-- `list(CATEGORIES.keys()) + ["Other"]` (line 60). -/
def allCategoriesNames : List String :=
  CATEGORIES.map Prod.fst ++ ["Other"]

-- Basic facts about `lowerChar`.

theorem toNat_lowerChar (c : Char) :
    (lowerChar c).toNat =
      if 65 ≤ c.toNat ∧ c.toNat ≤ 90 then c.toNat + 32 else c.toNat := by
  unfold lowerChar
  split
  · next h =>
    have hv : (c.toNat + 32).isValidChar := Or.inl (by omega)
    rw [Char.ofNat, dif_pos hv]
    rfl
  · rfl

theorem lowerChar_idem (c : Char) : lowerChar (lowerChar c) = lowerChar c := by
  by_cases h : 65 ≤ c.toNat ∧ c.toNat ≤ 90
  · have ht : (lowerChar c).toNat = c.toNat + 32 := by
      rw [toNat_lowerChar, if_pos h]
    rw [lowerChar]
    rw [if_neg (by omega)]
  · have hc : lowerChar c = c := by
      rw [lowerChar, if_neg h]
    rw [hc, hc]

theorem pyLower_idem (s : String) : pyLower (pyLower s) = pyLower s := by
  unfold pyLower
  simp [List.map_map, Function.comp_def, lowerChar_idem]

-- Facts about the table scan `findCategory`.

theorem findCategory_mem (x : String) :
    ∀ L : List (String × List String),
      findCategory x L ∈ L.map Prod.fst ++ ["Other"]
  | [] => by simp [findCategory]
  | (c, es) :: rest => by
    unfold findCategory
    split
    · simp
    · have h := findCategory_mem x rest
      simp only [List.map_cons, List.cons_append, List.mem_cons]
      right
      simpa using h

theorem findCategory_of_not_mem (x : String) :
    ∀ L : List (String × List String),
      (∀ p ∈ L, x ∉ p.2) → findCategory x L = "Other"
  | [] => fun _ => rfl
  | (c, es) :: rest => by
    intro h
    unfold findCategory
    rw [if_neg (h (c, es) (by simp))]
    exact findCategory_of_not_mem x rest fun p hp => h p (by simp [hp])

theorem findCategory_of_mem (x : String) :
    ∀ L : List (String × List String),
      L.Pairwise (fun p q => ∀ y ∈ p.2, y ∉ q.2) →
      ∀ c es, (c, es) ∈ L → x ∈ es → findCategory x L = c
  | [] => by intro _ c es h; simp at h
  | (c₀, es₀) :: rest => by
    intro hpw c es hmem hx
    have hpw' := (List.pairwise_cons.mp hpw)
    unfold findCategory
    rcases List.mem_cons.mp hmem with heq | htail
    · cases heq
      rw [if_pos hx]
    · split
      · next hx₀ =>
        exact absurd hx (hpw'.1 (c, es) htail x hx₀)
      · exact findCategory_of_mem x rest hpw'.2 c es htail hx

theorem CATEGORIES_pairwise_disjoint :
    CATEGORIES.Pairwise (fun p q => ∀ y ∈ p.2, y ∉ q.2) := by
  decide

/-! ## Decimal rendering of `Nat`

`organizer.py` builds the collision-renamed filename with the f-string
`f"{base_name}_{counter}{file_extension}"`, which renders `counter` in
decimal.  In Lean, `toString (n : Nat) = Nat.repr n`, computed via
`Nat.toDigitsCore`; we relate it to a structurally recursive rendering
`digitsOf` and prove the facts the collision-resolution claims need:
the rendering is injective and consists of digit characters only. -/

def digitsOf (n : Nat) : List Char :=
  if n < 10 then [Nat.digitChar n]
  else digitsOf (n / 10) ++ [Nat.digitChar (n % 10)]
decreasing_by exact Nat.div_lt_self (by omega) (by omega)

theorem digitsOf_lt (n : Nat) (h : n < 10) : digitsOf n = [Nat.digitChar n] := by
  rw [digitsOf, if_pos h]

theorem digitsOf_ge (n : Nat) (h : ¬ n < 10) :
    digitsOf n = digitsOf (n / 10) ++ [Nat.digitChar (n % 10)] := by
  conv_lhs => rw [digitsOf]
  rw [if_neg h]

theorem toDigitsCore_eq (fuel n : Nat) (ds : List Char)
    (hfuel : n < 10 ^ fuel) (hpos : 0 < fuel) :
    Nat.toDigitsCore 10 fuel n ds = digitsOf n ++ ds := by
  induction fuel generalizing n ds with
  | zero => omega
  | succ fuel ih =>
    by_cases h : n < 10
    · have h10 : n / 10 = 0 := Nat.div_eq_of_lt h
      rw [digitsOf_lt n h]
      simp [Nat.toDigitsCore, h10, Nat.mod_eq_of_lt h]
    · have hne : ¬ n / 10 = 0 := by omega
      have hfp : 0 < fuel := by
        by_contra hf
        have hf0 : fuel = 0 := by omega
        subst hf0
        have hten : (10 : ℕ) ^ (0 + 1) = 10 := by norm_num
        omega
      have hlt : n / 10 < 10 ^ fuel := by
        have hps : 10 ^ (fuel + 1) = 10 ^ fuel * 10 := pow_succ 10 fuel
        omega
      have hstep : Nat.toDigitsCore 10 (fuel + 1) n ds =
          Nat.toDigitsCore 10 fuel (n / 10) (Nat.digitChar (n % 10) :: ds) := by
        simp [Nat.toDigitsCore, hne]
      rw [hstep, ih (n / 10) _ hlt hfp, digitsOf_ge n h, List.append_assoc]
      rfl

theorem toString_nat_eq (n : Nat) : toString n = ⟨digitsOf n⟩ := by
  show Nat.repr n = _
  unfold Nat.repr Nat.toDigits
  have hlt : n < 10 ^ (n + 1) :=
    lt_of_lt_of_le (Nat.lt_pow_self (by omega) n)
      (Nat.pow_le_pow_right (by omega) (Nat.le_succ n))
  rw [toDigitsCore_eq (n + 1) n [] hlt (by omega)]
  simp [List.asString]

/-- Reads a digit string back as a number (10 ⬝ acc + digit value per char). -/
def valFrom (a : Nat) (l : List Char) : Nat :=
  l.foldl (fun acc c => acc * 10 + (c.toNat - 48)) a

theorem digitChar_toNat (r : Nat) (h : r < 10) : (Nat.digitChar r).toNat = r + 48 := by
  interval_cases r <;> rfl

theorem valFrom_digitsOf (n : Nat) : valFrom 0 (digitsOf n) = n := by
  induction n using Nat.strong_induction_on with
  | _ n ih =>
    by_cases h : n < 10
    · rw [digitsOf_lt n h]
      simp [valFrom, digitChar_toNat n h]
    · rw [digitsOf_ge n h]
      unfold valFrom
      rw [List.foldl_append]
      have ihn := ih (n / 10) (Nat.div_lt_self (by omega) (by omega))
      unfold valFrom at ihn
      rw [ihn]
      simp only [List.foldl_cons, List.foldl_nil,
        digitChar_toNat (n % 10) (Nat.mod_lt n (by omega))]
      omega

theorem digitsOf_inj {m n : Nat} (h : digitsOf m = digitsOf n) : m = n := by
  have hm := valFrom_digitsOf m
  rw [h, valFrom_digitsOf n] at hm
  omega

theorem digitsOf_digits (n : Nat) :
    ∀ c ∈ digitsOf n, c ∈ ['0', '1', '2', '3', '4', '5', '6', '7', '8', '9'] := by
  induction n using Nat.strong_induction_on with
  | _ n ih =>
    by_cases h : n < 10
    · rw [digitsOf_lt n h]
      intro c hc
      simp only [List.mem_singleton] at hc
      subst hc
      interval_cases n <;> decide
    · rw [digitsOf_ge n h]
      intro c hc
      rcases List.mem_append.mp hc with hc | hc
      · exact ih (n / 10) (Nat.div_lt_self (by omega) (by omega)) c hc
      · simp only [List.mem_singleton] at hc
        subst hc
        have hr : n % 10 < 10 := Nat.mod_lt n (by omega)
        interval_cases hrr : (n % 10) <;> decide

theorem digitsOf_no_dot (n : Nat) : '.' ∉ digitsOf n := by
  intro h
  have := digitsOf_digits n '.' h
  simp at this

theorem digitsOf_no_sep (n : Nat) : '/' ∉ digitsOf n := by
  intro h
  have := digitsOf_digits n '/' h
  simp at this

/-! ## `os.path.splitext`

CPython's `posixpath.splitext(p)` computes `sepIndex = p.rfind('/')` and
`dotIndex = p.rfind('.')`; if `dotIndex > sepIndex` and some character
strictly between `sepIndex` and `dotIndex` is not a dot, it returns
`(p[:dotIndex], p[dotIndex:])`, otherwise `(p, '')`.  `rfindIdx?` models
`str.rfind` (with `none` for Python's `-1`). -/

def rfindIdx? (ch : Char) : List Char → Option Nat
  | [] => none
  | c :: cs =>
    match rfindIdx? ch cs with
    | some i => some (i + 1)
    | none => if c = ch then some 0 else none

/-- The body of `posixpath.splitext` on the character list of the path. -/
def splitextData (p : List Char) : List Char × List Char :=
  match rfindIdx? '.' p with
  | none => (p, [])
  | some d =>
    let s : Nat :=
      match rfindIdx? '/' p with
      | none => 0
      | some i => i + 1
    let sepOk : Bool :=
      match rfindIdx? '/' p with
      | none => true
      | some i => decide (i < d)
    if sepOk then
      if ((p.drop s).take (d - s)).any (fun c => c ≠ '.') then
        (p.take d, p.drop d)
      else (p, [])
    else (p, [])

/-- Embeds `os.path.splitext` (used at line 98 of `organizer.py`). -/
def splitext (s : String) : String × String :=
  ((splitextData s.data).1.asString, (splitextData s.data).2.asString)

theorem rfindIdx?_eq_none (ch : Char) :
    ∀ l : List Char, rfindIdx? ch l = none ↔ ch ∉ l
  | [] => by simp [rfindIdx?]
  | c :: cs => by
    unfold rfindIdx?
    rcases h : rfindIdx? ch cs with _ | i
    · have hcs : ch ∉ cs := (rfindIdx?_eq_none ch cs).mp h
      by_cases hc : c = ch
      · simp [hc]
      · simp [hc, hcs]
        exact fun he => hc he.symm
    · have hcs : ch ∈ cs := by
        by_contra hn
        rw [← rfindIdx?_eq_none ch cs] at hn
        rw [h] at hn
        exact Option.noConfusion hn
      simp [hcs]

theorem rfindIdx?_last (ch : Char) (l₂ : List Char) (h₂ : ch ∉ l₂) :
    ∀ l₁ : List Char, rfindIdx? ch (l₁ ++ ch :: l₂) = some l₁.length
  | [] => by
    rw [List.nil_append]
    simp only [rfindIdx?, (rfindIdx?_eq_none ch l₂).mpr h₂]
    simp
  | c :: l₁ => by
    have ih := rfindIdx?_last ch l₂ h₂ l₁
    rw [List.cons_append]
    simp only [rfindIdx?, ih]
    simp

theorem exists_last_occ {α : Type} [DecidableEq α] (ch : α) :
    ∀ l : List α, ch ∈ l → ∃ l₁ l₂, l = l₁ ++ ch :: l₂ ∧ ch ∉ l₂
  | [], h => by simp at h
  | c :: cs, h => by
    by_cases hcs : ch ∈ cs
    · obtain ⟨l₁, l₂, heq, hnot⟩ := exists_last_occ ch cs hcs
      exact ⟨c :: l₁, l₂, by rw [heq]; rfl, hnot⟩
    · have hc : c = ch := by
        rcases List.mem_cons.mp h with h | h
        · exact h.symm
        · exact absurd h hcs
      exact ⟨[], cs, by rw [hc]; rfl, hcs⟩

theorem dot_decomp (l : List Char) :
    (∃ k rest, l = List.replicate k '.' ++ rest ∧ '.' ∉ rest) ∨
    (∃ l₁ l₂, l = l₁ ++ '.' :: l₂ ∧ '.' ∉ l₂ ∧ ∃ c ∈ l₁, c ≠ '.') := by
  by_cases hdot : '.' ∈ l
  · obtain ⟨l₁, l₂, heq, hnot⟩ := exists_last_occ '.' l hdot
    by_cases hall : ∀ c ∈ l₁, c = '.'
    · left
      refine ⟨l₁.length + 1, l₂, ?_, hnot⟩
      have hrep : l₁ = List.replicate l₁.length '.' :=
        List.eq_replicate_of_mem hall
      rw [heq, List.replicate_succ', List.append_assoc]
      rw [← hrep]
      rfl
    · right
      push_neg at hall
      exact ⟨l₁, l₂, heq, hnot, hall⟩
  · left
    exact ⟨0, l, by simp, hdot⟩

theorem splitextData_split (l₁ l₂ : List Char) (hdot : '.' ∉ l₂)
    (hsep : '/' ∉ l₁ ++ '.' :: l₂) (hnon : ∃ c ∈ l₁, c ≠ '.') :
    splitextData (l₁ ++ '.' :: l₂) = (l₁, '.' :: l₂) := by
  have hdotIdx : rfindIdx? '.' (l₁ ++ '.' :: l₂) = some l₁.length :=
    rfindIdx?_last '.' l₂ hdot l₁
  have hsepIdx : rfindIdx? '/' (l₁ ++ '.' :: l₂) = none :=
    (rfindIdx?_eq_none '/' _).mpr hsep
  unfold splitextData
  rw [hdotIdx]
  simp only [hsepIdx, if_true]
  have hreg : (((l₁ ++ '.' :: l₂).drop 0).take (l₁.length - 0)).any
      (fun c => c ≠ '.') = true := by
    obtain ⟨c, hc, hcne⟩ := hnon
    simp only [List.drop_zero, Nat.sub_zero, List.take_left]
    simp only [List.any_eq_true, decide_eq_true_eq]
    exact ⟨c, hc, hcne⟩
  rw [if_pos hreg]
  rw [List.take_left, List.drop_left]

theorem splitextData_nosplit (k : Nat) (rest : List Char) (hdot : '.' ∉ rest)
    (hsep : '/' ∉ List.replicate k '.' ++ rest) :
    splitextData (List.replicate k '.' ++ rest) =
      (List.replicate k '.' ++ rest, []) := by
  cases k with
  | zero =>
    have hnone : rfindIdx? '.' (List.replicate 0 '.' ++ rest) = none := by
      rw [rfindIdx?_eq_none]
      simpa using hdot
    unfold splitextData
    rw [hnone]
  | succ k' =>
    have hshape : List.replicate (k' + 1) '.' ++ rest =
        List.replicate k' '.' ++ '.' :: rest := by
      rw [List.replicate_succ', List.append_assoc]
      rfl
    rw [hshape]
    rw [hshape] at hsep
    have hdotIdx : rfindIdx? '.' (List.replicate k' '.' ++ '.' :: rest) =
        some (List.replicate k' '.').length :=
      rfindIdx?_last '.' rest hdot (List.replicate k' '.')
    have hsepIdx : rfindIdx? '/' (List.replicate k' '.' ++ '.' :: rest) = none :=
      (rfindIdx?_eq_none '/' _).mpr hsep
    unfold splitextData
    rw [hdotIdx]
    simp only [hsepIdx, if_true]
    have hreg : (((List.replicate k' '.' ++ '.' :: rest).drop 0).take
        ((List.replicate k' '.').length - 0)).any (fun c => c ≠ '.') = false := by
      simp only [List.drop_zero, Nat.sub_zero, List.take_left]
      rw [List.any_eq_false]
      intro c hc
      rw [List.mem_replicate] at hc
      simp [hc.2]
    rw [hreg]
    simp

/-! ## Filesystem model

A path is its list of components; the state is the (finite) set of regular
files and the set of directories, as lists.  `os.path.join(a, b)` is
`a ++ [b]`. -/

structure FS where
  files : List (List String)
  dirs : List (List String)
  deriving DecidableEq

/-- `os.path.isfile`. -/
def FS.isfile (fs : FS) (p : List String) : Bool := decide (p ∈ fs.files)

/-- `os.path.isdir`. -/
def FS.isdir (fs : FS) (p : List String) : Bool := decide (p ∈ fs.dirs)

/-- `os.path.exists`. -/
def FS.pathExists (fs : FS) (p : List String) : Bool := fs.isfile p || fs.isdir p

/-- `os.makedirs(p, exist_ok=True)`: no-op on an existing directory,
raises (`none`) if a regular file occupies the path, creates it otherwise. -/
def FS.makedirs (fs : FS) (p : List String) : Option FS :=
  if fs.isdir p then some fs
  else if fs.isfile p then none
  else some { fs with dirs := fs.dirs ++ [p] }

/-- `shutil.move(src, dst)` in the regime the program uses it (destination
path free): the source file is removed and the destination file appears. -/
def FS.move (fs : FS) (src dst : List String) : FS :=
  { fs with files := fs.files.erase src ++ [dst] }

/-- `os.listdir(p)`: the names of the immediate children of `p`. -/
def FS.listdir (fs : FS) (p : List String) : List String :=
  (fs.files ++ fs.dirs).filterMap fun q =>
    if p ++ [q.getLastD ""] = q then some (q.getLastD "") else none

/-- Well-formedness of a filesystem state: no duplicated paths, and no path
that is both a file and a directory. -/
def FS.WF (fs : FS) : Prop :=
  fs.files.Nodup ∧ fs.dirs.Nodup ∧ ∀ p ∈ fs.files, p ∉ fs.dirs

instance (fs : FS) : Decidable fs.WF := by
  unfold FS.WF
  infer_instance

/-- One `print` of `organize_directory`, as an abstract event. -/
inductive Event where
  | errorNotDir
  | ensuredFolder (name : String)
  | noFilesFound
  | moved (orig : String) (category : String) (destName : String) (renamed : Bool)
  | moveError (orig : String) (category : String)
  | summaryLine (category : String) (count : Nat)
  | noFilesMoved
  deriving DecidableEq

/-- The collision-renamed filename `f"{base_name}_{counter}{file_extension}"`
(line 114). -/
def candName (baseName fileExtension : String) (counter : Nat) : String :=
  baseName ++ "_" ++ toString counter ++ fileExtension

theorem candName_data (b e : String) (n : Nat) :
    (candName b e n).data = b.data ++ '_' :: (digitsOf n ++ e.data) := by
  simp [candName, toString_nat_eq, String.data_append]

theorem candName_inj (b e : String) {m n : Nat}
    (h : candName b e m = candName b e n) : m = n := by
  have hd : (candName b e m).data = (candName b e n).data := by rw [h]
  rw [candName_data, candName_data] at hd
  have h1 := List.append_cancel_left hd
  have h2 := List.cons.inj h1
  have h3 := List.append_cancel_right h2.2
  exact digitsOf_inj h3

theorem exists_cand_free (fs : FS) (folder : List String) (b e : String) :
    ∃ n : Nat, fs.pathExists (folder ++ [candName b e (n + 1)]) = false := by
  by_contra hcon
  push_neg at hcon
  have hmem : ∀ n : Nat, folder ++ [candName b e (n + 1)] ∈ fs.files ++ fs.dirs := by
    intro n
    have h := hcon n
    have ht : fs.pathExists (folder ++ [candName b e (n + 1)]) = true := by
      cases hb : fs.pathExists (folder ++ [candName b e (n + 1)])
      · exact absurd hb h
      · rfl
    rcases Bool.or_eq_true_iff.mp ht with hf | hd
    · exact List.mem_append.mpr (Or.inl (of_decide_eq_true hf))
    · exact List.mem_append.mpr (Or.inr (of_decide_eq_true hd))
  have hinj : Function.Injective fun n : Nat => folder ++ [candName b e (n + 1)] := by
    intro m n hmn
    have h1 := List.append_cancel_left hmn
    have h2 := (List.cons.inj h1).1
    have := candName_inj b e h2
    omega
  have hsub : (Set.range fun n : Nat => folder ++ [candName b e (n + 1)]) ⊆
      {x | x ∈ fs.files ++ fs.dirs} := by
    rintro x ⟨n, rfl⟩
    exact hmem n
  exact Set.infinite_range_of_injective hinj
    (Set.Finite.subset (fs.files ++ fs.dirs).finite_toSet hsub)

/-- Denotation of the collision-resolution `while` loop (lines 107-116): the
final `destination_file_name`.  If the candidate `item` is free it is kept;
otherwise the loop walks `counter = 1, 2, …` and stops at the first free
`f"{base_name}_{counter}{file_extension}"`, i.e. at the least such counter. -/
def resolveDest (fs : FS) (folder : List String) (item baseName fileExtension : String) :
    String :=
  if fs.pathExists (folder ++ [item]) = false then item
  else candName baseName fileExtension
    (Nat.find (exists_cand_free fs folder baseName fileExtension) + 1)

/-! ## The organizer -/

/-- Value of a key in the `moved_files_count` association list (`0` default;
in every state the program builds, every classified key is present). -/
def lookupCount : List (String × Nat) → String → Nat
  | [], _ => 0
  | (c, n) :: rest, k => if c = k then n else lookupCount rest k

/-- `moved_files_count[category] += 1` (line 129). -/
def bump : List (String × Nat) → String → List (String × Nat)
  | [], _ => []
  | (c, n) :: rest, k => if c = k then (c, n + 1) :: rest else (c, n) :: bump rest k

/-- `moved_files_count = {category: 0 for category in all_categories_names}`
(line 72). -/
def initialCounts : List (String × Nat) :=
  allCategoriesNames.map fun c => (c, 0)

/-- The in-flight state of the per-file loop: filesystem, counters, events. -/
structure StepState where
  fs : FS
  counts : List (String × Nat)
  events : List Event
  deriving DecidableEq

/-- The body of the `for item in files_to_process` loop (lines 87-138) for a
single `item`.  `moveOk` reports whether the `shutil.move` call at line 120
succeeds; when it does not, the exception is caught and only the error print
happens. -/
def processOne (path : List String) (moveOk : List String → List String → Bool)
    (st : StepState) (item : String) : StepState :=
  let itemPath := path ++ [item]
  if st.fs.isdir itemPath = true ∧ item ∈ allCategoriesNames then st
  else if st.fs.isfile itemPath = true then
    let baseName := (splitext item).1
    let fileExtension := (splitext item).2
    let category := get_category fileExtension
    let destinationFolder := path ++ [category]
    let destinationFileName := resolveDest st.fs destinationFolder item baseName fileExtension
    let destinationPath := destinationFolder ++ [destinationFileName]
    if moveOk itemPath destinationPath = true then
      { fs := st.fs.move itemPath destinationPath,
        counts := bump st.counts category,
        events := st.events ++ [Event.moved item category destinationFileName
          (item ≠ destinationFileName)] }
    else
      { st with events := st.events ++ [Event.moveError item category] }
  else st

/-- The folder-provisioning loop (lines 62-66): ensure each category folder,
stopping with `false` if `os.makedirs` raises. -/
def provision (fs : FS) (path : List String) : List String → FS × List Event × Bool
  | [] => (fs, [], true)
  | c :: rest =>
    match FS.makedirs fs (path ++ [c]) with
    | some fs' =>
      let r := provision fs' path rest
      (r.1, Event.ensuredFolder c :: r.2.1, r.2.2)
    | none => (fs, [], false)

/-- `files_to_process` (line 76): the immediate entries that are regular
files, snapshotted before any move. -/
def filesToProcess (fs : FS) (path : List String) : List String :=
  (fs.listdir path).filter fun item => fs.isfile (path ++ [item])

/-- Body of the summary loop (lines 146-150): print a line when the count is
positive and accumulate `total_moved`. -/
def summaryStep (counts : List (String × Nat)) (acc : List Event × Nat)
    (category : String) : List Event × Nat :=
  let count := lookupCount counts category
  if 0 < count then (acc.1 ++ [Event.summaryLine category count], acc.2 + count)
  else acc

/-- The summary block (lines 140-154): iterate the categories sorted
alphabetically, print a line for each positive count while accumulating
`total_moved`, and print the no-files message when the total is zero. -/
def summarize (counts : List (String × Nat)) : List Event :=
  let sortedCategories := List.insertionSort (· ≤ ·) (counts.map Prod.fst)
  let folded := sortedCategories.foldl (summaryStep counts) ([], 0)
  if folded.2 = 0 then folded.1 ++ [Event.noFilesMoved] else folded.1

/-- The optional summary line a category contributes. -/
def sumLine? (counts : List (String × Nat)) (c : String) : Option Event :=
  if 0 < lookupCount counts c
  then some (Event.summaryLine c (lookupCount counts c)) else none

/-- Original names of the files reported moved in a list of events. -/
def movedOrigs (evs : List Event) : List String :=
  evs.filterMap fun e =>
    match e with
    | Event.moved o _ _ _ => some o
    | _ => none

/-- The success events of a given category in a list of events. -/
def movedOfCat (c : String) (evs : List Event) : List Event :=
  evs.filter fun e =>
    match e with
    | Event.moved _ category _ _ => category = c
    | _ => false

/-- The (category, count) pairs of the summary lines in a list of events. -/
def linesOf (evs : List Event) : List (String × Nat) :=
  evs.filterMap fun e =>
    match e with
    | Event.summaryLine c n => some (c, n)
    | _ => none

/-- How a run ended: early `return` on a bad path, an uncaught
`os.makedirs` exception, or normal completion. -/
inductive Status where
  | notADirectory
  | provisionFailed
  | ok
  deriving DecidableEq

/-- Observable outcome of a run: final filesystem, final
`moved_files_count` (empty when never initialised), prints, status. -/
structure RunResult where
  fs : FS
  report : List (String × Nat)
  events : List Event
  status : Status
  deriving DecidableEq

/-- Embeds `organize_directory(path)` (lines 36-154). -/
def organize_directory (fs : FS) (path : List String)
    (moveOk : List String → List String → Bool) : RunResult :=
  if fs.isdir path = true then
    let pr := provision fs path allCategoriesNames
    if pr.2.2 = true then
      let snap := filesToProcess pr.1 path
      if snap = [] then
        { fs := pr.1, report := initialCounts,
          events := pr.2.1 ++ [Event.noFilesFound, Event.noFilesMoved],
          status := Status.ok }
      else
        let st := snap.foldl (processOne path moveOk) ⟨pr.1, initialCounts, []⟩
        { fs := st.fs, report := st.counts,
          events := pr.2.1 ++ st.events ++ summarize st.counts,
          status := Status.ok }
    else
      { fs := pr.1, report := [], events := pr.2.1, status := Status.provisionFailed }
  else
    { fs := fs, report := [], events := [Event.errorNotDir],
      status := Status.notADirectory }

/-! ## Helper lemmas for the claims -/

theorem string_eta (s : String) : (⟨s.data⟩ : String) = s := rfl

theorem splitext_eq_of {f : String} {a b : List Char}
    (h : splitextData f.data = (a, b)) : splitext f = (⟨a⟩, ⟨b⟩) := by
  unfold splitext
  rw [h]
  rfl

theorem makedirs_some_files {fs : FS} {p : List String} {fs' : FS}
    (h : fs.makedirs p = some fs') : fs'.files = fs.files := by
  unfold FS.makedirs at h
  split at h
  · cases h
    rfl
  · split at h
    · exact Option.noConfusion h
    · cases h
      rfl

theorem makedirs_isdir_mono {fs : FS} {p : List String} {fs' : FS}
    (h : fs.makedirs p = some fs') (q : List String) (hq : fs.isdir q = true) :
    fs'.isdir q = true := by
  unfold FS.makedirs at h
  split at h
  · cases h
    exact hq
  · split at h
    · exact Option.noConfusion h
    · cases h
      unfold FS.isdir at hq ⊢
      simp only [decide_eq_true_eq] at hq ⊢
      exact List.mem_append.mpr (Or.inl hq)

theorem makedirs_isdir_self {fs : FS} {p : List String} {fs' : FS}
    (h : fs.makedirs p = some fs') : fs'.isdir p = true := by
  unfold FS.makedirs at h
  split at h
  · next hd =>
    cases h
    exact hd
  · split at h
    · exact Option.noConfusion h
    · cases h
      unfold FS.isdir
      simp

theorem makedirs_idem {fs : FS} {p : List String} (h : fs.isdir p = true) :
    fs.makedirs p = some fs := by
  unfold FS.makedirs
  rw [if_pos h]

theorem isfile_congr_files {fs1 fs2 : FS} (h : fs1.files = fs2.files)
    (q : List String) : fs1.isfile q = fs2.isfile q := by
  unfold FS.isfile
  rw [h]

theorem makedirs_some_of_not_file {fs : FS} {p : List String}
    (h : fs.isfile p = false) : ∃ fs', fs.makedirs p = some fs' := by
  unfold FS.makedirs
  by_cases hd : fs.isdir p = true
  · rw [if_pos hd]
    exact ⟨fs, rfl⟩
  · rw [if_neg hd, h]
    refine ⟨{ fs with dirs := fs.dirs ++ [p] }, ?_⟩
    simp

theorem provision_files : ∀ (cats : List String) (fs : FS) (path : List String),
    (provision fs path cats).1.files = fs.files
  | [], _, _ => rfl
  | c :: rest, fs, path => by
    unfold provision
    cases h : fs.makedirs (path ++ [c]) with
    | none => rfl
    | some fs' =>
      simp only []
      rw [provision_files rest fs' path, makedirs_some_files h]

theorem provision_isdir_mono :
    ∀ (cats : List String) (fs : FS) (path q : List String),
      fs.isdir q = true → (provision fs path cats).1.isdir q = true
  | [], _, _, _, hq => hq
  | c :: rest, fs, path, q, hq => by
    unfold provision
    cases h : fs.makedirs (path ++ [c]) with
    | none => exact hq
    | some fs' =>
      simp only []
      exact provision_isdir_mono rest fs' path q (makedirs_isdir_mono h q hq)

theorem provision_ok_of :
    ∀ (cats : List String) (fs : FS) (path : List String),
      (∀ c ∈ cats, fs.isfile (path ++ [c]) = false) →
      (provision fs path cats).2.2 = true
  | [], _, _, _ => rfl
  | c :: rest, fs, path, hfree => by
    obtain ⟨fs', hmk⟩ := makedirs_some_of_not_file (hfree c (by simp))
    unfold provision
    rw [hmk]
    simp only []
    exact provision_ok_of rest fs' path fun c' hc' => by
      rw [isfile_congr_files (makedirs_some_files hmk)]
      exact hfree c' (by simp [hc'])

theorem provision_isdir_of :
    ∀ (cats : List String) (fs : FS) (path : List String),
      (∀ c ∈ cats, fs.isfile (path ++ [c]) = false) →
      ∀ c ∈ cats, (provision fs path cats).1.isdir (path ++ [c]) = true
  | [], _, _, _, c, hc => by simp at hc
  | c₀ :: rest, fs, path, hfree, c, hc => by
    obtain ⟨fs', hmk⟩ := makedirs_some_of_not_file (hfree c₀ (by simp))
    unfold provision
    rw [hmk]
    simp only []
    have hfree' : ∀ c' ∈ rest, fs'.isfile (path ++ [c']) = false := by
      intro c' hc'
      rw [isfile_congr_files (makedirs_some_files hmk)]
      exact hfree c' (by simp [hc'])
    rcases List.mem_cons.mp hc with hceq | htail
    · subst hceq
      exact provision_isdir_mono rest fs' path (path ++ [c])
        (makedirs_isdir_self hmk)
    · exact provision_isdir_of rest fs' path hfree' c htail

theorem processOne_dirs (path : List String)
    (mv : List String → List String → Bool) (st : StepState) (item : String) :
    (processOne path mv st item).fs.dirs = st.fs.dirs := by
  unfold processOne
  dsimp only
  split
  · rfl
  · split
    · split
      · rfl
      · rfl
    · rfl

theorem processFold_dirs (path : List String)
    (mv : List String → List String → Bool) :
    ∀ (items : List String) (st : StepState),
      (List.foldl (processOne path mv) st items).fs.dirs = st.fs.dirs
  | [], _ => rfl
  | item :: rest, st => by
    rw [List.foldl_cons, processFold_dirs path mv rest, processOne_dirs]

theorem isdir_congr_dirs {fs1 fs2 : FS} (h : fs1.dirs = fs2.dirs)
    (q : List String) : fs1.isdir q = fs2.isdir q := by
  unfold FS.isdir
  rw [h]

-- The snapshot `files_to_process`.

theorem getLastD_append_singleton {α : Type} (a : α) (p : List α) (d : α) :
    (p ++ [a]).getLastD d = a :=
  List.getLastD_concat d a p

theorem mem_listdir {fs : FS} {p : List String} {item : String} :
    item ∈ fs.listdir p ↔
      (p ++ [item] ∈ fs.files ∨ p ++ [item] ∈ fs.dirs) := by
  unfold FS.listdir
  rw [List.mem_filterMap]
  constructor
  · rintro ⟨q, hq, hf⟩
    split at hf
    · next heq =>
      have hitem : q.getLastD "" = item := by
        exact Option.some.inj hf
      rw [hitem] at heq
      rw [← heq] at hq
      exact List.mem_append.mp hq
    · exact Option.noConfusion hf
  · intro hq
    refine ⟨p ++ [item], List.mem_append.mpr hq, ?_⟩
    rw [getLastD_append_singleton]
    simp

theorem nodup_listdir {fs : FS} (hwf : fs.WF) (p : List String) :
    (fs.listdir p).Nodup := by
  unfold FS.listdir
  apply List.Nodup.filterMap
  · intro a b c hfa hfb
    have ha : a = p ++ [c] := by
      split at hfa
      · next heq =>
        rw [Option.some.inj hfa] at heq
        exact heq.symm
      · exact Option.noConfusion hfa
    have hb : b = p ++ [c] := by
      split at hfb
      · next heq =>
        rw [Option.some.inj hfb] at heq
        exact heq.symm
      · exact Option.noConfusion hfb
    rw [ha, hb]
  · exact List.Nodup.append hwf.1 hwf.2.1 hwf.2.2

theorem mem_filesToProcess {fs : FS} {p : List String} {item : String} :
    item ∈ filesToProcess fs p ↔ fs.isfile (p ++ [item]) = true := by
  unfold filesToProcess
  rw [List.mem_filter]
  constructor
  · exact fun h => h.2
  · intro h
    refine ⟨mem_listdir.mpr (Or.inl ?_), h⟩
    unfold FS.isfile at h
    exact of_decide_eq_true h

theorem not_isdir_of_mem_filesToProcess {fs : FS} (hwf : fs.WF)
    {p : List String} {item : String} (h : item ∈ filesToProcess fs p) :
    fs.isdir (p ++ [item]) = false := by
  have hf := mem_filesToProcess.mp h
  unfold FS.isfile at hf
  unfold FS.isdir
  exact decide_eq_false (hwf.2.2 _ (of_decide_eq_true hf))

theorem nodup_filesToProcess {fs : FS} (hwf : fs.WF) (p : List String) :
    (filesToProcess fs p).Nodup :=
  (nodup_listdir hwf p).filter _

theorem makedirs_WF {fs : FS} {p : List String} {fs' : FS}
    (h : fs.makedirs p = some fs') (hwf : fs.WF) : fs'.WF := by
  unfold FS.makedirs at h
  split at h
  · cases h
    exact hwf
  · next hnd =>
    split at h
    · exact Option.noConfusion h
    · next hnf =>
      cases h
      refine ⟨hwf.1, ?_, ?_⟩
      · apply List.Nodup.append hwf.2.1 (List.nodup_singleton p)
        intro q hq hq'
        rw [List.mem_singleton] at hq'
        subst hq'
        exact hnd (by unfold FS.isdir; simp [hq])
      · intro q hq hq'
        rcases List.mem_append.mp hq' with hm | hm
        · exact hwf.2.2 q hq hm
        · rw [List.mem_singleton] at hm
          subst hm
          exact hnf (by unfold FS.isfile; simp [hq])

theorem provision_WF :
    ∀ (cats : List String) (fs : FS) (path : List String),
      fs.WF → (provision fs path cats).1.WF
  | [], _, _, hwf => hwf
  | c :: rest, fs, path, hwf => by
    unfold provision
    cases h : fs.makedirs (path ++ [c]) with
    | none => exact hwf
    | some fs' =>
      simp only []
      exact provision_WF rest fs' path (makedirs_WF h hwf)

-- Moved-file bookkeeping in the event log.

theorem movedOrigs_append (a b : List Event) :
    movedOrigs (a ++ b) = movedOrigs a ++ movedOrigs b := by
  unfold movedOrigs
  exact List.filterMap_append a b _

theorem processOne_movedOrigs (path : List String)
    (mv : List String → List String → Bool) (st : StepState) (item : String) :
    movedOrigs (processOne path mv st item).events = movedOrigs st.events ∨
    movedOrigs (processOne path mv st item).events =
      movedOrigs st.events ++ [item] := by
  unfold processOne
  dsimp only
  split
  · exact Or.inl rfl
  · split
    · split
      · right
        rw [movedOrigs_append]
        rfl
      · left
        rw [movedOrigs_append]
        simp [movedOrigs]
    · exact Or.inl rfl

theorem processFold_movedOrigs (path : List String)
    (mv : List String → List String → Bool) :
    ∀ (items : List String) (st : StepState),
      ∃ sub : List String, sub.Sublist items ∧
        movedOrigs (List.foldl (processOne path mv) st items).events =
          movedOrigs st.events ++ sub
  | [], st => ⟨[], List.Sublist.refl [], by simp⟩
  | item :: rest, st => by
    obtain ⟨sub, hsub, heq⟩ :=
      processFold_movedOrigs path mv rest (processOne path mv st item)
    rw [List.foldl_cons]
    rcases processOne_movedOrigs path mv st item with hone | hone
    · exact ⟨sub, hsub.cons item, by rw [heq, hone]⟩
    · refine ⟨item :: sub, hsub.cons₂ item, ?_⟩
      rw [heq, hone, List.append_assoc]
      rfl

theorem provision_events_shape :
    ∀ (cats : List String) (fs : FS) (path : List String),
      ∀ e ∈ (provision fs path cats).2.1, ∃ c, e = Event.ensuredFolder c
  | [], _, _, e, he => by simp [provision] at he
  | c :: rest, fs, path, e, he => by
    unfold provision at he
    rcases h : fs.makedirs (path ++ [c]) with _ | fs'
    · rw [h] at he
      simp at he
    · rw [h] at he
      simp only [List.mem_cons] at he
      rcases he with he | he
      · exact ⟨c, he⟩
      · exact provision_events_shape rest fs' path e he

theorem movedOrigs_provision (cats : List String) (fs : FS)
    (path : List String) : movedOrigs (provision fs path cats).2.1 = [] := by
  unfold movedOrigs
  rw [List.filterMap_eq_nil_iff]
  intro e he
  obtain ⟨c, hc⟩ := provision_events_shape cats fs path e he
  rw [hc]

-- The summary block.

theorem summaryFold (counts : List (String × Nat)) :
    ∀ (L : List String) (acc : List Event) (t : Nat),
      List.foldl (summaryStep counts) (acc, t) L =
        (acc ++ L.filterMap (sumLine? counts),
          t + (L.map (lookupCount counts)).sum)
  | [], acc, t => by simp
  | c :: L, acc, t => by
    rw [List.foldl_cons]
    by_cases h : 0 < lookupCount counts c
    · have hstep : summaryStep counts (acc, t) c =
          (acc ++ [Event.summaryLine c (lookupCount counts c)],
            t + lookupCount counts c) := by
        unfold summaryStep
        rw [if_pos h]
      rw [hstep, summaryFold counts L _ _]
      have hline : sumLine? counts c =
          some (Event.summaryLine c (lookupCount counts c)) := by
        unfold sumLine?
        rw [if_pos h]
      rw [List.filterMap_cons, hline]
      simp [List.append_assoc]
      omega
    · have hzero : lookupCount counts c = 0 := by omega
      have hstep : summaryStep counts (acc, t) c = (acc, t) := by
        unfold summaryStep
        rw [if_neg h]
      rw [hstep, summaryFold counts L _ _]
      have hline : sumLine? counts c = none := by
        unfold sumLine?
        rw [if_neg h]
      rw [List.filterMap_cons, hline]
      simp [hzero]

theorem summarize_eq (counts : List (String × Nat)) :
    summarize counts =
      if ((List.insertionSort (· ≤ ·) (counts.map Prod.fst)).map
          (lookupCount counts)).sum = 0
      then (List.insertionSort (· ≤ ·) (counts.map Prod.fst)).filterMap
          (sumLine? counts) ++ [Event.noFilesMoved]
      else (List.insertionSort (· ≤ ·) (counts.map Prod.fst)).filterMap
          (sumLine? counts) := by
  unfold summarize
  dsimp only
  rw [summaryFold]
  simp

theorem summarize_shape (counts : List (String × Nat)) :
    ∀ e ∈ summarize counts,
      (∃ c k, e = Event.summaryLine c k) ∨ e = Event.noFilesMoved := by
  intro e he
  rw [summarize_eq] at he
  have hline : ∀ e', e' ∈ (List.insertionSort (· ≤ ·)
      (counts.map Prod.fst)).filterMap (sumLine? counts) →
      ∃ c k, e' = Event.summaryLine c k := by
    intro e' he'
    obtain ⟨c, _, hc⟩ := List.mem_filterMap.mp he'
    unfold sumLine? at hc
    split at hc
    · exact ⟨c, lookupCount counts c, (Option.some.inj hc).symm⟩
    · exact Option.noConfusion hc
  split at he
  · rcases List.mem_append.mp he with hm | hm
    · exact Or.inl (hline e hm)
    · rw [List.mem_singleton] at hm
      exact Or.inr hm
  · exact Or.inl (hline e he)

theorem movedOrigs_summarize (counts : List (String × Nat)) :
    movedOrigs (summarize counts) = [] := by
  unfold movedOrigs
  rw [List.filterMap_eq_nil_iff]
  intro e he
  rcases summarize_shape counts e he with ⟨c, k, hc⟩ | hc <;> rw [hc]

/-- Unfolding of a completed run (valid directory, provisioning succeeded). -/
theorem organize_ok_eq (fs : FS) (path : List String)
    (moveOk : List String → List String → Bool)
    (hdir : fs.isdir path = true)
    (hok : (provision fs path allCategoriesNames).2.2 = true) :
    organize_directory fs path moveOk =
      if filesToProcess (provision fs path allCategoriesNames).1 path = [] then
        { fs := (provision fs path allCategoriesNames).1,
          report := initialCounts,
          events := (provision fs path allCategoriesNames).2.1 ++
            [Event.noFilesFound, Event.noFilesMoved],
          status := Status.ok }
      else
        { fs := (List.foldl (processOne path moveOk)
            ⟨(provision fs path allCategoriesNames).1, initialCounts, []⟩
            (filesToProcess (provision fs path allCategoriesNames).1 path)).fs,
          report := (List.foldl (processOne path moveOk)
            ⟨(provision fs path allCategoriesNames).1, initialCounts, []⟩
            (filesToProcess (provision fs path allCategoriesNames).1 path)).counts,
          events := (provision fs path allCategoriesNames).2.1 ++
            (List.foldl (processOne path moveOk)
              ⟨(provision fs path allCategoriesNames).1, initialCounts, []⟩
              (filesToProcess (provision fs path allCategoriesNames).1 path)).events ++
            summarize (List.foldl (processOne path moveOk)
              ⟨(provision fs path allCategoriesNames).1, initialCounts, []⟩
              (filesToProcess (provision fs path allCategoriesNames).1 path)).counts,
          status := Status.ok } := by
  unfold organize_directory
  rw [if_pos hdir]
  dsimp only
  rw [if_pos hok]

-- Correspondence between the counters and the success events.

theorem initialCounts_keys : initialCounts.map Prod.fst = allCategoriesNames := by
  unfold initialCounts
  rw [List.map_map]
  have hid : (Prod.fst ∘ fun c : String => (c, 0)) = id := rfl
  rw [hid, List.map_id]

theorem lookupCount_map_zero (c : String) :
    ∀ L : List String, lookupCount (L.map fun c => (c, 0)) c = 0
  | [] => rfl
  | c₀ :: L => by
    show lookupCount ((c₀, 0) :: L.map fun c => (c, 0)) c = 0
    unfold lookupCount
    split
    · rfl
    · exact lookupCount_map_zero c L

theorem bump_keys (k : String) :
    ∀ counts : List (String × Nat),
      (bump counts k).map Prod.fst = counts.map Prod.fst
  | [] => rfl
  | (c₀, n) :: rest => by
    unfold bump
    split
    · rfl
    · show c₀ :: (bump rest k).map Prod.fst = c₀ :: rest.map Prod.fst
      rw [bump_keys k rest]

theorem bump_lookup (k c : String) :
    ∀ counts : List (String × Nat), k ∈ counts.map Prod.fst →
      lookupCount (bump counts k) c =
        lookupCount counts c + (if c = k then 1 else 0)
  | [], hk => by simp at hk
  | (c₀, n) :: rest, hk => by
    unfold bump
    by_cases h0 : c₀ = k
    · rw [if_pos h0]
      subst h0
      unfold lookupCount
      by_cases hc : c₀ = c
      · subst hc
        rw [if_pos rfl, if_pos rfl, if_pos rfl]
      · rw [if_neg hc, if_neg hc, if_neg (fun h : c = c₀ => hc h.symm)]
        omega
    · rw [if_neg h0]
      have hk' : k ∈ rest.map Prod.fst := by
        rcases List.mem_cons.mp hk with h | h
        · exact absurd h.symm h0
        · exact h
      unfold lookupCount
      by_cases hc : c₀ = c
      · subst hc
        rw [if_pos rfl, if_pos rfl, if_neg (fun h : c₀ = k => h0 h)]
        omega
      · rw [if_neg hc, if_neg hc]
        exact bump_lookup k c rest hk'

theorem movedOfCat_append (c : String) (a b : List Event) :
    movedOfCat c (a ++ b) = movedOfCat c a ++ movedOfCat c b := by
  unfold movedOfCat
  exact List.filter_append a b

theorem movedOfCat_moved_singleton (c cat o d : String) (r : Bool) :
    movedOfCat c [Event.moved o cat d r] =
      if cat = c then [Event.moved o cat d r] else [] := by
  unfold movedOfCat
  by_cases h : cat = c
  · simp [h]
  · simp [h]

theorem movedOfCat_error_singleton (c o cat' : String) :
    movedOfCat c [Event.moveError o cat'] = [] := by
  unfold movedOfCat
  simp

theorem movedOfCat_provision (c : String) (cats : List String) (fs : FS)
    (path : List String) : movedOfCat c (provision fs path cats).2.1 = [] := by
  unfold movedOfCat
  rw [List.filter_eq_nil_iff]
  intro e he
  obtain ⟨c', hc'⟩ := provision_events_shape cats fs path e he
  rw [hc']
  simp

theorem movedOfCat_summarize (c : String) (counts : List (String × Nat)) :
    movedOfCat c (summarize counts) = [] := by
  unfold movedOfCat
  rw [List.filter_eq_nil_iff]
  intro e he
  rcases summarize_shape counts e he with ⟨c', k, hc'⟩ | hc' <;>
    (rw [hc']; simp)

/-- The loop invariant tying `moved_files_count` to the success events. -/
def CountsInv (st : StepState) : Prop :=
  st.counts.map Prod.fst = allCategoriesNames ∧
  ∀ c, lookupCount st.counts c = (movedOfCat c st.events).length

theorem processOne_counts_inv (path : List String)
    (mv : List String → List String → Bool) (st : StepState) (item : String)
    (hinv : CountsInv st) : CountsInv (processOne path mv st item) := by
  unfold processOne
  dsimp only
  split
  · exact hinv
  · split
    · split
      · refine ⟨by rw [bump_keys, hinv.1], fun c => ?_⟩
        have hk : get_category (splitext item).2 ∈ st.counts.map Prod.fst := by
          rw [hinv.1]
          exact findCategory_mem (pyLower (splitext item).2) CATEGORIES
        rw [bump_lookup _ c st.counts hk, hinv.2 c, movedOfCat_append,
          movedOfCat_moved_singleton]
        by_cases hc : c = get_category (splitext item).2
        · rw [if_pos hc, if_pos hc.symm]
          simp
        · rw [if_neg hc, if_neg (fun h => hc h.symm)]
          simp
      · refine ⟨hinv.1, fun c => ?_⟩
        rw [hinv.2 c, movedOfCat_append, movedOfCat_error_singleton]
        simp
    · exact hinv

theorem processFold_counts_inv (path : List String)
    (mv : List String → List String → Bool) :
    ∀ (items : List String) (st : StepState),
      CountsInv st → CountsInv (List.foldl (processOne path mv) st items)
  | [], _, hinv => hinv
  | item :: rest, st, hinv => by
    rw [List.foldl_cons]
    exact processFold_counts_inv path mv rest _
      (processOne_counts_inv path mv st item hinv)

theorem initial_counts_inv (fs : FS) :
    CountsInv ⟨fs, initialCounts, []⟩ := by
  refine ⟨initialCounts_keys, fun c => ?_⟩
  show lookupCount initialCounts c = (movedOfCat c []).length
  unfold initialCounts
  rw [lookupCount_map_zero]
  rfl

-- Facts about association-list lookup under distinct keys.

theorem lookupCount_cons_self (c₀ : String) (m : Nat)
    (rest : List (String × Nat)) : lookupCount ((c₀, m) :: rest) c₀ = m := by
  show (if c₀ = c₀ then m else lookupCount rest c₀) = m
  rw [if_pos rfl]

theorem lookupCount_cons_ne {c₀ c : String} (m : Nat)
    (rest : List (String × Nat)) (h : c₀ ≠ c) :
    lookupCount ((c₀, m) :: rest) c = lookupCount rest c := by
  show (if c₀ = c then m else lookupCount rest c) = lookupCount rest c
  rw [if_neg h]

theorem mem_iff_lookup :
    ∀ counts : List (String × Nat), (counts.map Prod.fst).Nodup →
      ∀ c n, ((c, n) ∈ counts ↔
        (c ∈ counts.map Prod.fst ∧ lookupCount counts c = n))
  | [], _, c, n => by simp
  | (c₀, m) :: rest, hnd, c, n => by
    rw [List.map_cons] at hnd
    obtain ⟨hc₀, hndr⟩ := List.nodup_cons.mp hnd
    constructor
    · intro hm
      rcases List.mem_cons.mp hm with he | ht
      · injection he with he1 he2
        subst he1
        subst he2
        exact ⟨by simp, lookupCount_cons_self _ _ _⟩
      · obtain ⟨hk, hl⟩ := (mem_iff_lookup rest hndr c n).mp ht
        have hne : c₀ ≠ c := fun he => hc₀ (he ▸ hk)
        exact ⟨by simp [hk], by rw [lookupCount_cons_ne m rest hne]; exact hl⟩
    · rintro ⟨hk, hl⟩
      by_cases he : c₀ = c
      · subst he
        rw [lookupCount_cons_self] at hl
        exact List.mem_cons.mpr (Or.inl (by rw [hl]))
      · have hk' : c ∈ rest.map Prod.fst := by
          rw [List.map_cons] at hk
          rcases List.mem_cons.mp hk with h | h
          · exact absurd h.symm he
          · exact h
        rw [lookupCount_cons_ne m rest he] at hl
        exact List.mem_cons.mpr
          (Or.inr ((mem_iff_lookup rest hndr c n).mpr ⟨hk', hl⟩))

theorem sum_lookup_eq :
    ∀ counts : List (String × Nat), (counts.map Prod.fst).Nodup →
      ((counts.map Prod.fst).map (lookupCount counts)).sum =
        (counts.map Prod.snd).sum
  | [], _ => rfl
  | (c₀, m) :: rest, hnd => by
    rw [List.map_cons] at hnd
    obtain ⟨hc₀, hndr⟩ := List.nodup_cons.mp hnd
    simp only [List.map_cons, List.sum_cons]
    rw [lookupCount_cons_self]
    congr 1
    have hmapeq : (rest.map Prod.fst).map (lookupCount ((c₀, m) :: rest)) =
        (rest.map Prod.fst).map (lookupCount rest) := by
      apply List.map_congr_left
      intro c hc
      exact lookupCount_cons_ne m rest (fun he => hc₀ (he ▸ hc))
    rw [hmapeq, sum_lookup_eq rest hndr]

theorem mem_summaryLines (counts : List (String × Nat)) (c : String) (n : Nat) :
    Event.summaryLine c n ∈
      (List.insertionSort (· ≤ ·) (counts.map Prod.fst)).filterMap
        (sumLine? counts) ↔
    (c ∈ counts.map Prod.fst ∧ lookupCount counts c = n ∧ 0 < n) := by
  rw [List.mem_filterMap]
  constructor
  · rintro ⟨c', hc', hline⟩
    unfold sumLine? at hline
    split at hline
    · next hpos =>
      obtain ⟨he1, he2⟩ := Event.summaryLine.inj (Option.some.inj hline)
      subst he1
      refine ⟨((List.perm_insertionSort _ _).mem_iff).mp hc', he2, ?_⟩
      rw [← he2]
      exact hpos
    · exact Option.noConfusion hline
  · rintro ⟨hk, hl, hp⟩
    refine ⟨c, ((List.perm_insertionSort _ _).mem_iff).mpr hk, ?_⟩
    unfold sumLine?
    rw [if_pos (by rw [hl]; exact hp), hl]

theorem noFilesMoved_not_line (counts : List (String × Nat)) :
    Event.noFilesMoved ∉
      (List.insertionSort (· ≤ ·) (counts.map Prod.fst)).filterMap
        (sumLine? counts) := by
  intro hmem
  obtain ⟨c', _, hline⟩ := List.mem_filterMap.mp hmem
  unfold sumLine? at hline
  split at hline
  · exact Event.noConfusion (Option.some.inj hline)
  · exact Option.noConfusion hline

theorem summarize_total (counts : List (String × Nat))
    (hnd : (counts.map Prod.fst).Nodup) :
    ((List.insertionSort (· ≤ ·) (counts.map Prod.fst)).map
      (lookupCount counts)).sum = (counts.map Prod.snd).sum := by
  have hperm : List.Perm (List.insertionSort (· ≤ ·) (counts.map Prod.fst))
      (counts.map Prod.fst) := List.perm_insertionSort _ _
  rw [(hperm.map (lookupCount counts)).sum_eq]
  exact sum_lookup_eq counts hnd

theorem linesOf_first (counts : List (String × Nat)) (c : String)
    (x : String × Nat)
    (hx : ((sumLine? counts c).bind fun e =>
      match e with
      | Event.summaryLine c' n => some (c', n)
      | _ => none) = some x) : x.1 = c := by
  unfold sumLine? at hx
  split at hx
  · rw [Option.some_bind] at hx
    rw [← Option.some.inj hx]
  · exact Option.noConfusion hx

theorem linesOf_sorted (counts : List (String × Nat))
    (hnd : (counts.map Prod.fst).Nodup) :
    (linesOf (summarize counts)).Pairwise (fun a b => a.1 < b.1) := by
  have hbase : (linesOf ((List.insertionSort (· ≤ ·)
      (counts.map Prod.fst)).filterMap (sumLine? counts))).Pairwise
      (fun a b => a.1 < b.1) := by
    unfold linesOf
    rw [List.filterMap_filterMap, List.pairwise_filterMap]
    have hsorted : (List.insertionSort (· ≤ ·)
        (counts.map Prod.fst)).Pairwise (· ≤ ·) :=
      List.sorted_insertionSort (· ≤ ·) (counts.map Prod.fst)
    have hnds : (List.insertionSort (· ≤ ·)
        (counts.map Prod.fst)).Nodup :=
      ((List.perm_insertionSort _ _).nodup_iff).mpr hnd
    have hlt : (List.insertionSort (· ≤ ·)
        (counts.map Prod.fst)).Pairwise (· < ·) :=
      (hsorted.and hnds).imp fun hab => lt_of_le_of_ne hab.1 hab.2
    apply hlt.imp
    intro a b hab x hx y hy
    rw [linesOf_first counts a x hx, linesOf_first counts b y hy]
    exact hab
  rw [summarize_eq]
  split
  · unfold linesOf
    rw [List.filterMap_append]
    have hnil : ([Event.noFilesMoved].filterMap fun e =>
        match e with
        | Event.summaryLine c' n => some (c', n)
        | _ => none) = [] := rfl
    rw [hnil, List.append_nil]
    exact hbase
  · exact hbase

/-! ## Claims -/


/-- C1: `classify` (= `get_category`) is a total function that lowercases its
argument and looks it up across the categories of the static table: whenever
the lowercased extension lies in some category's extension list, that
category's name is returned (the table's extension lists are pairwise
disjoint, so it is the unique one); when it lies in no list, the fallback
`"Other"` is returned; and the result only depends on the lowercased
extension, so every case variation of an extension yields the same
category. -/
theorem c1_classifier_case_insensitive_lookup (e : String) :
    get_category (pyLower e) = get_category e ∧
    (∀ e' : String, pyLower e' = pyLower e → get_category e' = get_category e) ∧
    (∀ p ∈ CATEGORIES, pyLower e ∈ p.2 → get_category e = p.1) ∧
    ((∀ p ∈ CATEGORIES, pyLower e ∉ p.2) → get_category e = "Other") := by
  refine ⟨?_, ?_, ?_, ?_⟩
  · unfold get_category
    rw [pyLower_idem]
  · intro e' he
    unfold get_category
    rw [he]
  · intro p hp hx
    exact findCategory_of_mem (pyLower e) CATEGORIES CATEGORIES_pairwise_disjoint
      p.1 p.2 (by simpa using hp) hx
  · intro h
    exact findCategory_of_not_mem (pyLower e) CATEGORIES h

theorem c1_witness :
    get_category (pyLower ".JPG") = get_category ".JPG" ∧
    get_category ".JPG" = "Images" ∧
    get_category ".unknowncustomext" = "Other" := by
  have h := c1_classifier_case_insensitive_lookup ".JPG"
  have h' := c1_classifier_case_insensitive_lookup ".unknowncustomext"
  refine ⟨h.1, ?_, ?_⟩
  · exact h.2.2.1 ("Images", [".jpg", ".jpeg", ".png", ".gif", ".bmp", ".tiff", ".webp"])
      (by decide) (by decide)
  · exact h'.2.2.2 (by decide)

/-- C9: every classification result is one of the report keys initialised at
the start of a run (the table's category names plus `"Other"`), so the
increment of `moved_files_count[category]` always finds its key and the
destination folder of a classified file is always one of the provisioned
category folders. -/
theorem c9_classification_always_a_known_key (e : String) :
    get_category e ∈ allCategoriesNames ∧
    get_category e ∈ initialCounts.map Prod.fst := by
  have h : get_category e ∈ CATEGORIES.map Prod.fst ++ ["Other"] :=
    findCategory_mem (pyLower e) CATEGORIES
  constructor
  · exact h
  · have hkeys : initialCounts.map Prod.fst = allCategoriesNames := by
      unfold initialCounts
      rw [List.map_map]
      have hid : (Prod.fst ∘ fun c : String => (c, 0)) = id := rfl
      rw [hid, List.map_id]
    rw [hkeys]
    exact h

theorem c9_witness :
    get_category ".somethingelse" ∈ allCategoriesNames ∧
    get_category ".somethingelse" ∈ initialCounts.map Prod.fst :=
  c9_classification_always_a_known_key ".somethingelse"

/-- C8: filename splitting follows `os.path.splitext` semantics: base and
extension concatenate back to the filename; a filename with no dot has empty
extension and keeps the whole name as base; whenever the filename decomposes
around its last dot with some non-dot character in front of that dot, the
split happens exactly there — the base is everything before the last dot and
the extension is the last dot-delimited suffix including the dot (and a
nonempty extension always has that shape: a leading dot and no further dot);
and a name that is only leading dots followed by a dotless remainder, such
as `".gitignore"`, has empty extension and keeps the whole name as base. -/
theorem c8_splitext_semantics (f : String) (hsep : '/' ∉ f.data) :
    (splitext f).1 ++ (splitext f).2 = f ∧
    ('.' ∉ f.data → splitext f = (f, "")) ∧
    (∀ l₁ l₂ : List Char, f.data = l₁ ++ '.' :: l₂ → '.' ∉ l₂ →
      (∃ c ∈ l₁, c ≠ '.') → splitext f = (⟨l₁⟩, ⟨'.' :: l₂⟩)) ∧
    (∀ (k : Nat) (rest : List Char), f.data = List.replicate k '.' ++ rest →
      '.' ∉ rest → splitext f = (f, "")) ∧
    ((splitext f).2 ≠ "" → ∃ cs, (splitext f).2.data = '.' :: cs ∧ '.' ∉ cs) ∧
    splitext ".gitignore" = (".gitignore", "") := by
  have hpos : ∀ l₁ l₂ : List Char, f.data = l₁ ++ '.' :: l₂ → '.' ∉ l₂ →
      (∃ c ∈ l₁, c ≠ '.') → splitext f = (⟨l₁⟩, ⟨'.' :: l₂⟩) := by
    intro l₁ l₂ heq hnd hw
    have hdata : splitextData f.data = (l₁, '.' :: l₂) := by
      rw [heq]
      exact splitextData_split l₁ l₂ hnd (heq ▸ hsep) hw
    exact splitext_eq_of hdata
  have hneg : ∀ (k : Nat) (rest : List Char),
      f.data = List.replicate k '.' ++ rest → '.' ∉ rest →
      splitext f = (f, "") := by
    intro k rest heq hnd
    have hdata : splitextData f.data = (f.data, []) := by
      rw [heq]
      exact splitextData_nosplit k rest hnd (heq ▸ hsep)
    have hs := splitext_eq_of hdata
    rw [string_eta] at hs
    exact hs
  have hgit : splitext ".gitignore" = (".gitignore", "") := by
    have h := splitextData_nosplit 1 ['g', 'i', 't', 'i', 'g', 'n', 'o', 'r', 'e']
      (by decide) (by decide)
    have h' : splitextData (".gitignore".data) =
        (".gitignore".data, []) := by
      simpa using h
    rw [splitext_eq_of h']
  rcases dot_decomp f.data with ⟨k, rest, heq, hnd⟩ | ⟨l₁, l₂, heq, hnd, hw⟩
  · have hs := hneg k rest heq hnd
    refine ⟨?_, fun _ => hs, hpos, hneg, ?_, hgit⟩
    · rw [hs]
      show f ++ ("" : String) = f
      simp
    · intro hne
      rw [hs] at hne
      exact absurd rfl hne
  · have hs := hpos l₁ l₂ heq hnd hw
    refine ⟨?_, ?_, hpos, hneg, ?_, hgit⟩
    · rw [hs]
      show (⟨l₁ ++ '.' :: l₂⟩ : String) = f
      rw [← heq]
    · intro hnd'
      exfalso
      apply hnd'
      rw [heq]
      simp
    · intro _
      rw [hs]
      exact ⟨l₂, rfl, hnd⟩

theorem c8_witness :
    ('/' ∉ "notes.txt".data) ∧
    ((splitext "notes.txt").1 ++ (splitext "notes.txt").2 = "notes.txt" ∧
      ('.' ∉ "notes.txt".data → splitext "notes.txt" = ("notes.txt", "")) ∧
      (∀ l₁ l₂ : List Char, "notes.txt".data = l₁ ++ '.' :: l₂ → '.' ∉ l₂ →
        (∃ c ∈ l₁, c ≠ '.') → splitext "notes.txt" = (⟨l₁⟩, ⟨'.' :: l₂⟩)) ∧
      (∀ (k : Nat) (rest : List Char),
        "notes.txt".data = List.replicate k '.' ++ rest → '.' ∉ rest →
        splitext "notes.txt" = ("notes.txt", "")) ∧
      ((splitext "notes.txt").2 ≠ "" →
        ∃ cs, (splitext "notes.txt").2.data = '.' :: cs ∧ '.' ∉ cs) ∧
      splitext ".gitignore" = (".gitignore", "")) ∧
    splitext "notes.txt" = ("notes", ".txt") :=
  ⟨by decide, c8_splitext_semantics "notes.txt" (by decide), by
    have h := (c8_splitext_semantics "notes.txt" (by decide)).2.2.1
      "notes".data "txt".data (by decide) (by decide) (by decide)
    exact h⟩

theorem mk_append_mk (a b : List Char) :
    (⟨a⟩ : String) ++ (⟨b⟩ : String) = ⟨a ++ b⟩ := rfl

/-- C10: splitting a collision-renamed filename `{base}_{n}{ext}` (where
`(base, ext)` came from splitting a filename) recovers the same extension
`ext`, with base `{base}_{n}`; hence a renamed file classifies into the same
category as the original on a later run. -/
theorem c10_rename_preserves_extension (f : String) (n : Nat) (hn : 1 ≤ n)
    (hsep : '/' ∉ f.data) :
    splitext (candName (splitext f).1 (splitext f).2 n) =
      ((splitext f).1 ++ "_" ++ toString n, (splitext f).2) := by
  rcases dot_decomp f.data with ⟨k, rest, heq, hnd⟩ | ⟨l₁, l₂, heq, hnd, hw⟩
  · have hns : splitextData f.data = (f.data, []) := by
      rw [heq]
      exact splitextData_nosplit k rest hnd (heq ▸ hsep)
    have hs := splitext_eq_of hns
    rw [string_eta] at hs
    rw [hs]
    have hcd : (candName f "" n).data =
        List.replicate k '.' ++ (rest ++ '_' :: digitsOf n) := by
      rw [candName_data, heq]
      simp
    have hnd' : '.' ∉ rest ++ '_' :: digitsOf n := by
      intro hmem
      rcases List.mem_append.mp hmem with hm | hm
      · exact hnd hm
      · rcases List.mem_cons.mp hm with hm | hm
        · exact absurd hm (by decide)
        · exact digitsOf_no_dot n hm
    have hsep' : '/' ∉ List.replicate k '.' ++ (rest ++ '_' :: digitsOf n) := by
      intro hmem
      rcases List.mem_append.mp hmem with hm | hm
      · exact hsep (heq ▸ List.mem_append.mpr (Or.inl hm))
      · rcases List.mem_append.mp hm with hm | hm
        · exact hsep (heq ▸ List.mem_append.mpr (Or.inr hm))
        · rcases List.mem_cons.mp hm with hm | hm
          · exact absurd hm (by decide)
          · exact digitsOf_no_sep n hm
    have hns2 : splitextData (candName f "" n).data =
        ((candName f "" n).data, []) := by
      rw [hcd]
      exact splitextData_nosplit k (rest ++ '_' :: digitsOf n) hnd' hsep'
    have hs2 := splitext_eq_of hns2
    rw [string_eta] at hs2
    rw [hs2]
    have hred : candName f "" n = f ++ "_" ++ toString n := by
      unfold candName
      rw [toString_nat_eq]
      rcases f with ⟨fd⟩
      simp [mk_append_mk]
    rw [hred]
  · have hsp : splitextData f.data = (l₁, '.' :: l₂) := by
      rw [heq]
      exact splitextData_split l₁ l₂ hnd (heq ▸ hsep) hw
    have hs := splitext_eq_of hsp
    rw [hs]
    have hcd : (candName ⟨l₁⟩ ⟨'.' :: l₂⟩ n).data =
        (l₁ ++ '_' :: digitsOf n) ++ '.' :: l₂ := by
      rw [candName_data]
      simp
    have hnond : ∃ c ∈ l₁ ++ '_' :: digitsOf n, c ≠ '.' := by
      exact ⟨'_', List.mem_append.mpr (Or.inr (List.mem_cons.mpr (Or.inl rfl))),
        by decide⟩
    have hsep' : '/' ∉ (l₁ ++ '_' :: digitsOf n) ++ '.' :: l₂ := by
      intro hmem
      rcases List.mem_append.mp hmem with hm | hm
      · rcases List.mem_append.mp hm with hm | hm
        · exact hsep (heq ▸ List.mem_append.mpr (Or.inl hm))
        · rcases List.mem_cons.mp hm with hm | hm
          · exact absurd hm (by decide)
          · exact digitsOf_no_sep n hm
      · exact hsep (heq ▸ List.mem_append.mpr (Or.inr hm))
    have hsp2 : splitextData (candName ⟨l₁⟩ ⟨'.' :: l₂⟩ n).data =
        (l₁ ++ '_' :: digitsOf n, '.' :: l₂) := by
      rw [hcd]
      exact splitextData_split (l₁ ++ '_' :: digitsOf n) l₂ hnd hsep' hnond
    have hs2 := splitext_eq_of hsp2
    rw [hs2]
    have hfst : (⟨l₁ ++ '_' :: digitsOf n⟩ : String) =
        (⟨l₁⟩ : String) ++ "_" ++ toString n := by
      rw [toString_nat_eq]
      rw [mk_append_mk, mk_append_mk]
      simp
    rw [hfst]

theorem c10_witness :
    (1 ≤ 2 ∧ '/' ∉ "report.pdf".data) ∧
    splitext (candName (splitext "report.pdf").1 (splitext "report.pdf").2 2) =
      ((splitext "report.pdf").1 ++ "_" ++ toString 2, (splitext "report.pdf").2) :=
  ⟨⟨by decide, by decide⟩,
    c10_rename_preserves_extension "report.pdf" 2 (by decide) (by decide)⟩

/-- C2: when the candidate destination `folder/item` already exists, the
final destination name produced by the collision loop is `{base}_{n}{ext}`
for the least `n ≥ 1` whose path does not exist: every `m` with
`1 ≤ m < n` was tried and found existing (so `n` starts at 1, increases by
1, none reused), the chosen destination does not exist, and moving onto the
chosen destination never removes any other existing file (no overwrite). -/
theorem c2_collision_resolution (fs : FS) (folder : List String)
    (item baseName fileExtension : String)
    (hcol : fs.pathExists (folder ++ [item]) = true) :
    ∃ n : Nat, 1 ≤ n ∧
      resolveDest fs folder item baseName fileExtension =
        candName baseName fileExtension n ∧
      fs.pathExists (folder ++ [candName baseName fileExtension n]) = false ∧
      (∀ m, 1 ≤ m → m < n →
        fs.pathExists (folder ++ [candName baseName fileExtension m]) = true) ∧
      (∀ src q, fs.isfile q = true → q ≠ src →
        (fs.move src (folder ++ [candName baseName fileExtension n])).isfile q
          = true) := by
  have hf := exists_cand_free fs folder baseName fileExtension
  refine ⟨Nat.find hf + 1, by omega, ?_, ?_, ?_, ?_⟩
  · unfold resolveDest
    rw [if_neg (by rw [hcol]; exact fun hh => Bool.noConfusion hh)]
  · exact Nat.find_spec hf
  · intro m h1 h2
    have hlt : m - 1 < Nat.find hf := by omega
    have hmin := Nat.find_min hf hlt
    have hm : m - 1 + 1 = m := by omega
    rw [hm] at hmin
    cases hb : fs.pathExists (folder ++ [candName baseName fileExtension m])
    · exact absurd hb hmin
    · rfl
  · intro src q hq hne
    unfold FS.move FS.isfile
    simp only [decide_eq_true_eq]
    apply List.mem_append.mpr
    left
    rw [List.mem_erase_of_ne hne]
    exact of_decide_eq_true hq

theorem c2_witness :
    (FS.pathExists ⟨[["d", "Documents", "report.pdf"],
        ["d", "Documents", "report_1.pdf"]], [["d"], ["d", "Documents"]]⟩
      (["d", "Documents"] ++ ["report.pdf"]) = true) ∧
    (∃ n : Nat, 1 ≤ n ∧
      resolveDest ⟨[["d", "Documents", "report.pdf"],
          ["d", "Documents", "report_1.pdf"]], [["d"], ["d", "Documents"]]⟩
        ["d", "Documents"] "report.pdf" "report" ".pdf" =
        candName "report" ".pdf" n ∧
      FS.pathExists ⟨[["d", "Documents", "report.pdf"],
          ["d", "Documents", "report_1.pdf"]], [["d"], ["d", "Documents"]]⟩
        (["d", "Documents"] ++ [candName "report" ".pdf" n]) = false ∧
      (∀ m, 1 ≤ m → m < n →
        FS.pathExists ⟨[["d", "Documents", "report.pdf"],
            ["d", "Documents", "report_1.pdf"]], [["d"], ["d", "Documents"]]⟩
          (["d", "Documents"] ++ [candName "report" ".pdf" m]) = true) ∧
      (∀ src q,
        FS.isfile ⟨[["d", "Documents", "report.pdf"],
            ["d", "Documents", "report_1.pdf"]], [["d"], ["d", "Documents"]]⟩
          q = true → q ≠ src →
        (FS.move ⟨[["d", "Documents", "report.pdf"],
            ["d", "Documents", "report_1.pdf"]], [["d"], ["d", "Documents"]]⟩
          src (["d", "Documents"] ++ [candName "report" ".pdf" n])).isfile q
          = true)) :=
  ⟨by decide,
    c2_collision_resolution ⟨[["d", "Documents", "report.pdf"],
        ["d", "Documents", "report_1.pdf"]], [["d"], ["d", "Documents"]]⟩
      ["d", "Documents"] "report.pdf" "report" ".pdf" (by decide)⟩

/-- C3: on a path that is not an existing directory, the run fails with the
`NotADirectory` condition: only the error is reported, the filesystem is
unchanged (zero folders created, zero files moved) and the report is
empty. -/
theorem c3_not_a_directory (fs : FS) (path : List String)
    (moveOk : List String → List String → Bool) (h : fs.isdir path = false) :
    organize_directory fs path moveOk =
      { fs := fs, report := [], events := [Event.errorNotDir],
        status := Status.notADirectory } := by
  unfold organize_directory
  rw [if_neg (by rw [h]; exact fun hh => Bool.noConfusion hh)]

theorem c3_witness :
    (FS.isdir ⟨[["f"]], [["e"]]⟩ ["missing"] = false) ∧
    organize_directory ⟨[["f"]], [["e"]]⟩ ["missing"] (fun _ _ => true) =
      { fs := ⟨[["f"]], [["e"]]⟩, report := [], events := [Event.errorNotDir],
        status := Status.notADirectory } :=
  ⟨by decide, c3_not_a_directory ⟨[["f"]], [["e"]]⟩ ["missing"]
    (fun _ _ => true) (by decide)⟩

/-- C4: on a valid directory (with the category paths not blocked by
regular files, in which case `os.makedirs` would raise), ensuring a folder
that already exists is a no-op rather than an error; the provisioning phase
succeeds and leaves a subfolder of `path` for every name in
`CategoryTable` plus `"Other"` before any file is processed (processing
starts from the provisioned state by definition of `organize_directory`);
and after the whole run every category name still has an existing
subfolder, even if no file was moved into it. -/
theorem c4_category_folders_ensured (fs : FS) (path : List String)
    (moveOk : List String → List String → Bool)
    (hdir : fs.isdir path = true)
    (hfree : ∀ c ∈ allCategoriesNames, fs.isfile (path ++ [c]) = false) :
    (∀ (fs' : FS) (p : List String), fs'.isdir p = true →
      fs'.makedirs p = some fs') ∧
    (provision fs path allCategoriesNames).2.2 = true ∧
    (∀ c ∈ allCategoriesNames,
      (provision fs path allCategoriesNames).1.isdir (path ++ [c]) = true) ∧
    (organize_directory fs path moveOk).status = Status.ok ∧
    (∀ c ∈ allCategoriesNames,
      (organize_directory fs path moveOk).fs.isdir (path ++ [c]) = true) := by
  have hok := provision_ok_of allCategoriesNames fs path hfree
  have hdirs := provision_isdir_of allCategoriesNames fs path hfree
  refine ⟨fun fs' p h => makedirs_idem h, hok, hdirs, ?_, ?_⟩
  · unfold organize_directory
    rw [if_pos hdir]
    dsimp only
    rw [if_pos hok]
    split <;> rfl
  · intro c hc
    unfold organize_directory
    rw [if_pos hdir]
    dsimp only
    rw [if_pos hok]
    split
    · exact hdirs c hc
    · have hd := processFold_dirs path moveOk
        (filesToProcess (provision fs path allCategoriesNames).1 path)
        ⟨(provision fs path allCategoriesNames).1, initialCounts, []⟩
      rw [isdir_congr_dirs hd]
      exact hdirs c hc

theorem c4_witness :
    (FS.isdir ⟨[["d", "a.txt"]], [["d"]]⟩ ["d"] = true ∧
      ∀ c ∈ allCategoriesNames,
        FS.isfile ⟨[["d", "a.txt"]], [["d"]]⟩ (["d"] ++ [c]) = false) ∧
    ((∀ (fs' : FS) (p : List String), fs'.isdir p = true →
        fs'.makedirs p = some fs') ∧
      (provision ⟨[["d", "a.txt"]], [["d"]]⟩ ["d"] allCategoriesNames).2.2 = true ∧
      (∀ c ∈ allCategoriesNames,
        (provision ⟨[["d", "a.txt"]], [["d"]]⟩ ["d"]
          allCategoriesNames).1.isdir (["d"] ++ [c]) = true) ∧
      (organize_directory ⟨[["d", "a.txt"]], [["d"]]⟩ ["d"]
        (fun _ _ => true)).status = Status.ok ∧
      (∀ c ∈ allCategoriesNames,
        (organize_directory ⟨[["d", "a.txt"]], [["d"]]⟩ ["d"]
          (fun _ _ => true)).fs.isdir (["d"] ++ [c]) = true)) :=
  ⟨⟨by decide, by decide⟩,
    c4_category_folders_ensured ⟨[["d", "a.txt"]], [["d"]]⟩ ["d"]
      (fun _ _ => true) (by decide) (by decide)⟩

/-- C5: the set of files processed in one run is exactly the snapshot of the
directory's immediate regular-file entries in the post-provisioning,
pre-move state: membership in `files_to_process` coincides with being a
regular-file child of the directory, directories (including the category
folders just created) are excluded, the snapshot has no duplicates, and the
files actually moved during the run form a duplicate-free subsequence of the
snapshot — every file is moved at most once. -/
theorem c5_snapshot_of_regular_files (fs : FS) (path : List String)
    (moveOk : List String → List String → Bool)
    (hdir : fs.isdir path = true) (hwf : fs.WF)
    (hfree : ∀ c ∈ allCategoriesNames, fs.isfile (path ++ [c]) = false) :
    (∀ item : String,
      item ∈ filesToProcess (provision fs path allCategoriesNames).1 path ↔
        (provision fs path allCategoriesNames).1.isfile (path ++ [item])
          = true) ∧
    (∀ item ∈ filesToProcess (provision fs path allCategoriesNames).1 path,
      (provision fs path allCategoriesNames).1.isdir (path ++ [item])
        = false) ∧
    (filesToProcess (provision fs path allCategoriesNames).1 path).Nodup ∧
    (movedOrigs (organize_directory fs path moveOk).events).Sublist
      (filesToProcess (provision fs path allCategoriesNames).1 path) ∧
    (movedOrigs (organize_directory fs path moveOk).events).Nodup := by
  have hwf1 : (provision fs path allCategoriesNames).1.WF :=
    provision_WF allCategoriesNames fs path hwf
  have hok := provision_ok_of allCategoriesNames fs path hfree
  have hsub : (movedOrigs (organize_directory fs path moveOk).events).Sublist
      (filesToProcess (provision fs path allCategoriesNames).1 path) := by
    rw [organize_ok_eq fs path moveOk hdir hok]
    split
    · next hnil =>
      rw [hnil]
      show (movedOrigs ((provision fs path allCategoriesNames).2.1 ++
        [Event.noFilesFound, Event.noFilesMoved])).Sublist []
      rw [movedOrigs_append, movedOrigs_provision]
      exact List.Sublist.refl _
    · obtain ⟨sub, hs, he⟩ := processFold_movedOrigs path moveOk
        (filesToProcess (provision fs path allCategoriesNames).1 path)
        ⟨(provision fs path allCategoriesNames).1, initialCounts, []⟩
      show (movedOrigs ((provision fs path allCategoriesNames).2.1 ++ _ ++
        summarize _)).Sublist _
      rw [movedOrigs_append, movedOrigs_append, movedOrigs_provision,
        movedOrigs_summarize, he]
      simpa using hs
  exact ⟨fun _ => mem_filesToProcess,
    fun _ h => not_isdir_of_mem_filesToProcess hwf1 h,
    nodup_filesToProcess hwf1 path, hsub,
    hsub.nodup (nodup_filesToProcess hwf1 path)⟩

theorem c5_witness :
    (FS.isdir ⟨[["d", "a.txt"], ["d", "b.txt"]], [["d"]]⟩ ["d"] = true ∧
      FS.WF ⟨[["d", "a.txt"], ["d", "b.txt"]], [["d"]]⟩ ∧
      ∀ c ∈ allCategoriesNames,
        FS.isfile ⟨[["d", "a.txt"], ["d", "b.txt"]], [["d"]]⟩
          (["d"] ++ [c]) = false) ∧
    ((∀ item : String,
      item ∈ filesToProcess
          (provision ⟨[["d", "a.txt"], ["d", "b.txt"]], [["d"]]⟩ ["d"]
            allCategoriesNames).1 ["d"] ↔
        (provision ⟨[["d", "a.txt"], ["d", "b.txt"]], [["d"]]⟩ ["d"]
          allCategoriesNames).1.isfile (["d"] ++ [item]) = true) ∧
    (∀ item ∈ filesToProcess
        (provision ⟨[["d", "a.txt"], ["d", "b.txt"]], [["d"]]⟩ ["d"]
          allCategoriesNames).1 ["d"],
      (provision ⟨[["d", "a.txt"], ["d", "b.txt"]], [["d"]]⟩ ["d"]
        allCategoriesNames).1.isdir (["d"] ++ [item]) = false) ∧
    (filesToProcess (provision ⟨[["d", "a.txt"], ["d", "b.txt"]], [["d"]]⟩
      ["d"] allCategoriesNames).1 ["d"]).Nodup ∧
    (movedOrigs (organize_directory ⟨[["d", "a.txt"], ["d", "b.txt"]], [["d"]]⟩
      ["d"] (fun _ _ => true)).events).Sublist
      (filesToProcess (provision ⟨[["d", "a.txt"], ["d", "b.txt"]], [["d"]]⟩
        ["d"] allCategoriesNames).1 ["d"]) ∧
    (movedOrigs (organize_directory ⟨[["d", "a.txt"], ["d", "b.txt"]], [["d"]]⟩
      ["d"] (fun _ _ => true)).events).Nodup) :=
  ⟨⟨by decide, by decide, by decide⟩,
    c5_snapshot_of_regular_files ⟨[["d", "a.txt"], ["d", "b.txt"]], [["d"]]⟩
      ["d"] (fun _ _ => true) (by decide) (by decide) (by decide)⟩

/-- C6: when the move of one file fails (any caught error), the step only
emits the per-file failure message: the filesystem and every counter are
left unchanged, and processing continues with the remaining files of the
snapshot — the fold simply goes on from the same state.  Moreover, in every
completed run, each category's counter equals the number of successful
moves into that category recorded in the log, so a counter is incremented
by 1 exactly when a move into that category succeeds. -/
theorem c6_move_failure_isolated (path : List String)
    (moveOk : List String → List String → Bool) (st : StepState)
    (item : String) (rest : List String)
    (hfile : st.fs.isfile (path ++ [item]) = true)
    (hnotdir : st.fs.isdir (path ++ [item]) = false)
    (hfail : moveOk (path ++ [item])
      (path ++ [get_category (splitext item).2] ++
        [resolveDest st.fs (path ++ [get_category (splitext item).2]) item
          (splitext item).1 (splitext item).2]) = false) :
    processOne path moveOk st item =
      { st with events := st.events ++
          [Event.moveError item (get_category (splitext item).2)] } ∧
    (processOne path moveOk st item).counts = st.counts ∧
    (processOne path moveOk st item).fs = st.fs ∧
    List.foldl (processOne path moveOk) st (item :: rest) =
      List.foldl (processOne path moveOk)
        { st with events := st.events ++
            [Event.moveError item (get_category (splitext item).2)] } rest ∧
    (∀ (fs₀ : FS) (path₀ : List String)
        (mv₀ : List String → List String → Bool),
      (organize_directory fs₀ path₀ mv₀).status = Status.ok →
      ∀ c, lookupCount (organize_directory fs₀ path₀ mv₀).report c =
        (movedOfCat c (organize_directory fs₀ path₀ mv₀).events).length) := by
  have hstep : processOne path moveOk st item =
      { st with events := st.events ++
          [Event.moveError item (get_category (splitext item).2)] } := by
    unfold processOne
    dsimp only
    rw [if_neg (fun hand => by
      rw [hnotdir] at hand
      exact Bool.noConfusion hand.1)]
    rw [if_pos hfile,
      if_neg (by rw [hfail]; exact fun hh => Bool.noConfusion hh)]
  refine ⟨hstep, by rw [hstep], by rw [hstep], by rw [List.foldl_cons, hstep],
    ?_⟩
  intro fs₀ path₀ mv₀ hst c
  by_cases hd : fs₀.isdir path₀ = true
  · by_cases hok : (provision fs₀ path₀ allCategoriesNames).2.2 = true
    · rw [organize_ok_eq fs₀ path₀ mv₀ hd hok]
      split
      · show lookupCount initialCounts c =
          (movedOfCat c ((provision fs₀ path₀ allCategoriesNames).2.1 ++
            [Event.noFilesFound, Event.noFilesMoved])).length
        rw [movedOfCat_append, movedOfCat_provision]
        unfold initialCounts
        rw [lookupCount_map_zero]
        rfl
      · have hinv := processFold_counts_inv path₀ mv₀
          (filesToProcess (provision fs₀ path₀ allCategoriesNames).1 path₀)
          ⟨(provision fs₀ path₀ allCategoriesNames).1, initialCounts, []⟩
          (initial_counts_inv _)
        show lookupCount (List.foldl (processOne path₀ mv₀)
            ⟨(provision fs₀ path₀ allCategoriesNames).1, initialCounts, []⟩
            (filesToProcess (provision fs₀ path₀ allCategoriesNames).1
              path₀)).counts c = _
        rw [movedOfCat_append, movedOfCat_append, movedOfCat_provision,
          movedOfCat_summarize]
        simp only [List.nil_append, List.append_nil]
        exact hinv.2 c
    · exfalso
      unfold organize_directory at hst
      rw [if_pos hd] at hst
      dsimp only at hst
      rw [if_neg hok] at hst
      simp at hst
  · exfalso
    unfold organize_directory at hst
    rw [if_neg (fun hh => hd hh)] at hst
    simp at hst

theorem c6_witness :
    ((FS.isfile ⟨[["d", "a.txt"]], [["d"]]⟩ (["d"] ++ ["a.txt"]) = true) ∧
      (FS.isdir ⟨[["d", "a.txt"]], [["d"]]⟩ (["d"] ++ ["a.txt"]) = false)) ∧
    (processOne ["d"] (fun _ _ => false)
        ⟨⟨[["d", "a.txt"]], [["d"]]⟩, initialCounts, []⟩ "a.txt" =
      { (⟨⟨[["d", "a.txt"]], [["d"]]⟩, initialCounts, []⟩ : StepState) with
          events := (⟨⟨[["d", "a.txt"]], [["d"]]⟩, initialCounts,
            ([] : List Event)⟩ : StepState).events ++
            [Event.moveError "a.txt" (get_category (splitext "a.txt").2)] } ∧
      (processOne ["d"] (fun _ _ => false)
        ⟨⟨[["d", "a.txt"]], [["d"]]⟩, initialCounts, []⟩ "a.txt").counts =
        (⟨⟨[["d", "a.txt"]], [["d"]]⟩, initialCounts,
          ([] : List Event)⟩ : StepState).counts ∧
      (processOne ["d"] (fun _ _ => false)
        ⟨⟨[["d", "a.txt"]], [["d"]]⟩, initialCounts, []⟩ "a.txt").fs =
        (⟨⟨[["d", "a.txt"]], [["d"]]⟩, initialCounts,
          ([] : List Event)⟩ : StepState).fs ∧
      List.foldl (processOne ["d"] (fun _ _ => false))
          ⟨⟨[["d", "a.txt"]], [["d"]]⟩, initialCounts, []⟩
          ("a.txt" :: ["b.txt"]) =
        List.foldl (processOne ["d"] (fun _ _ => false))
          { (⟨⟨[["d", "a.txt"]], [["d"]]⟩, initialCounts,
              ([] : List Event)⟩ : StepState) with
            events := (⟨⟨[["d", "a.txt"]], [["d"]]⟩, initialCounts,
              ([] : List Event)⟩ : StepState).events ++
              [Event.moveError "a.txt" (get_category (splitext "a.txt").2)] }
          ["b.txt"] ∧
      (∀ (fs₀ : FS) (path₀ : List String)
          (mv₀ : List String → List String → Bool),
        (organize_directory fs₀ path₀ mv₀).status = Status.ok →
        ∀ c, lookupCount (organize_directory fs₀ path₀ mv₀).report c =
          (movedOfCat c (organize_directory fs₀ path₀ mv₀).events).length)) :=
  ⟨⟨by decide, by decide⟩,
    c6_move_failure_isolated ["d"] (fun _ _ => false)
      ⟨⟨[["d", "a.txt"]], [["d"]]⟩, initialCounts, []⟩ "a.txt" ["b.txt"]
      (by decide) (by decide) rfl⟩

/-- C7: the summary presents exactly the categories with a positive count —
a summary line for `(c, n)` appears iff the report maps `c` to `n > 0` —
in alphabetical order of category name (the listed pairs are strictly
ordered by key), the no-files-moved message appears iff the total over all
categories is zero, and every completed run ends its output with the
summary of its report. -/
theorem c7_summary_sorted_positive_only (counts : List (String × Nat))
    (hnd : (counts.map Prod.fst).Nodup) :
    (∀ c n, Event.summaryLine c n ∈ summarize counts ↔
      ((c, n) ∈ counts ∧ 0 < n)) ∧
    (linesOf (summarize counts)).Pairwise (fun a b => a.1 < b.1) ∧
    (Event.noFilesMoved ∈ summarize counts ↔
      (counts.map Prod.snd).sum = 0) ∧
    (∀ (fs₀ : FS) (path₀ : List String)
        (mv₀ : List String → List String → Bool),
      (organize_directory fs₀ path₀ mv₀).status = Status.ok →
      ∃ pre, (organize_directory fs₀ path₀ mv₀).events =
        pre ++ summarize (organize_directory fs₀ path₀ mv₀).report) := by
  have hline_iff : ∀ c n, (Event.summaryLine c n ∈
      (List.insertionSort (· ≤ ·) (counts.map Prod.fst)).filterMap
        (sumLine? counts)) ↔ ((c, n) ∈ counts ∧ 0 < n) := by
    intro c n
    rw [mem_summaryLines]
    constructor
    · rintro ⟨hk, hl, hp⟩
      exact ⟨(mem_iff_lookup counts hnd c n).mpr ⟨hk, hl⟩, hp⟩
    · rintro ⟨hm, hp⟩
      obtain ⟨hk, hl⟩ := (mem_iff_lookup counts hnd c n).mp hm
      exact ⟨hk, hl, hp⟩
  refine ⟨?_, linesOf_sorted counts hnd, ?_, ?_⟩
  · intro c n
    rw [summarize_eq]
    split
    · rw [List.mem_append]
      constructor
      · rintro (h | h)
        · exact (hline_iff c n).mp h
        · rw [List.mem_singleton] at h
          exact absurd h (by simp)
      · intro h
        exact Or.inl ((hline_iff c n).mpr h)
    · exact hline_iff c n
  · rw [summarize_eq]
    split
    · next htot =>
      constructor
      · intro _
        rw [← summarize_total counts hnd]
        exact htot
      · intro _
        exact List.mem_append.mpr (Or.inr (by simp))
    · next htot =>
      constructor
      · intro h
        exact absurd h (noFilesMoved_not_line counts)
      · intro hsum
        exfalso
        apply htot
        rw [summarize_total counts hnd]
        exact hsum
  · intro fs₀ path₀ mv₀ hst
    by_cases hd : fs₀.isdir path₀ = true
    · by_cases hok : (provision fs₀ path₀ allCategoriesNames).2.2 = true
      · rw [organize_ok_eq fs₀ path₀ mv₀ hd hok]
        split
        · refine ⟨(provision fs₀ path₀ allCategoriesNames).2.1 ++
            [Event.noFilesFound], ?_⟩
          show (provision fs₀ path₀ allCategoriesNames).2.1 ++
            [Event.noFilesFound, Event.noFilesMoved] = _ ++
              summarize initialCounts
          have hzero : ∀ c, lookupCount initialCounts c = 0 := fun c => by
            unfold initialCounts
            exact lookupCount_map_zero c _
          have hmap : ∀ L : List String,
              (L.map (lookupCount initialCounts)).sum = 0 := by
            intro L
            induction L with
            | nil => rfl
            | cons a L ih => simp [hzero, ih]
          have hfil : ∀ L : List String,
              L.filterMap (sumLine? initialCounts) = [] := by
            intro L
            rw [List.filterMap_eq_nil_iff]
            intro c _
            unfold sumLine?
            rw [if_neg (by rw [hzero]; omega)]
          have hsumm : summarize initialCounts = [Event.noFilesMoved] := by
            rw [summarize_eq, if_pos (hmap _), hfil]
            simp
          rw [hsumm, List.append_assoc]
          rfl
        · exact ⟨(provision fs₀ path₀ allCategoriesNames).2.1 ++
            (List.foldl (processOne path₀ mv₀)
              ⟨(provision fs₀ path₀ allCategoriesNames).1, initialCounts, []⟩
              (filesToProcess (provision fs₀ path₀ allCategoriesNames).1
                path₀)).events, rfl⟩
      · exfalso
        unfold organize_directory at hst
        rw [if_pos hd] at hst
        dsimp only at hst
        rw [if_neg hok] at hst
        simp at hst
    · exfalso
      unfold organize_directory at hst
      rw [if_neg (fun hh => hd hh)] at hst
      simp at hst

theorem c7_witness :
    (([("Documents", 1), ("Images", 0)].map
      (Prod.fst (β := Nat))).Nodup) ∧
    ((∀ c n, Event.summaryLine c n ∈
        summarize [("Documents", 1), ("Images", 0)] ↔
      ((c, n) ∈ [("Documents", 1), ("Images", 0)] ∧ 0 < n)) ∧
    (linesOf (summarize [("Documents", 1), ("Images", 0)])).Pairwise
      (fun a b => a.1 < b.1) ∧
    (Event.noFilesMoved ∈ summarize [("Documents", 1), ("Images", 0)] ↔
      ([("Documents", 1), ("Images", 0)].map
        (Prod.snd (α := String))).sum = 0) ∧
    (∀ (fs₀ : FS) (path₀ : List String)
        (mv₀ : List String → List String → Bool),
      (organize_directory fs₀ path₀ mv₀).status = Status.ok →
      ∃ pre, (organize_directory fs₀ path₀ mv₀).events =
        pre ++ summarize (organize_directory fs₀ path₀ mv₀).report)) :=
  ⟨by decide, c7_summary_sorted_positive_only
    [("Documents", 1), ("Images", 0)] (by decide)⟩

end Organizer
